import Mathlib

/-!
Verification of the industrial-4.0-demo workflow orchestrator.

This file shallowly embeds the core data model and operations of the Go
implementation (write-ahead log recovery, workflow engine with Saga
rollback, rule gating, workflow resolution, the per-order FSM, the
priority queue used by the scheduler, and the scheduler's worker-slot
discipline) and proves or refutes the specification claims about them.

Conventions:
* Go machine integers that never overflow in the modelled paths are
  embedded as `Int`/`Nat`.
* External collaborators (the `expr` rule library, station bodies, the
  file system) are abstracted as oracle functions supplied in an
  environment record; the repository's own control flow around them is
  embedded verbatim.
* Fallible Go paths are embedded as `Option`/products with an error flag.
-/

set_option linter.unusedVariables false

namespace Industrial

/-- Closed attribute value type for `Product.Attrs`
(`map[string]interface{}` in Go).  Rules only inspect these through the
abstract expression oracle, so the exact carrier is irrelevant to the
claims; float attributes are not modelled. -/
inductive AttrVal where
  | b (v : Bool)
  | i (v : Int)
  | s (v : String)
deriving DecidableEq, Repr

/-- `types.Product` (internal/types): the order routed through the plant.
The `FSM` field (a runtime interface pointer) is tracked separately by the
engine model. -/
structure Product where
  id : String
  type : String
  priority : Int
  step : Int
  history : List String
  status : String
  attrs : List (String × AttrVal)
deriving DecidableEq, Repr

instance : Inhabited Product :=
  ⟨{ id := "", type := "", priority := 0, step := 0, history := [], status := "", attrs := [] }⟩

/-! ## Write-ahead log (internal/persistence, src/unnamed/part_000)

A WAL file is a sequence of newline-delimited records.  `json.Unmarshal`
either fails on a line (the recovery loop skips it) or yields a
`LogEntry` struct; we model the parsed file as a list of `WalLine`.
-/

/-- `persistence.LogEntry`: `{type, task?, task_id?}`.  `Task` is a
pointer in Go (`nil` when the field is absent), hence `Option`. -/
structure LogEntry where
  type : String
  task : Option Product
  taskID : String
deriving DecidableEq, Repr

/-- One line of the WAL file after the `json.Unmarshal` attempt:
`corrupt` is a line the decoder rejects (skipped by `Recover`). -/
inductive WalLine where
  | corrupt
  | entry (e : LogEntry)
deriving DecidableEq, Repr

/-- Assoc-list embedding of the Go map write
`pendingTasks[entry.Task.ID] = entry.Task`: overwrite the binding if the
key is present, append otherwise. -/
def insertA : List (String × Product) → String → Product → List (String × Product)
  | [], k, v => [(k, v)]
  | kv :: rest, k, v => if kv.1 = k then (k, v) :: rest else kv :: insertA rest k v

/-- Assoc-list embedding of a Go map read. -/
def lookupP : List (String × Product) → String → Option Product
  | [], _ => none
  | kv :: rest, k => if kv.1 = k then some kv.2 else lookupP rest k

/-- The scanning loop of `WAL.Recover`, parameterised by the key under
which a `COMPLETE` record is stored in `completedTasks` (the two source
variants differ exactly there: `entry.TaskID` vs `entry.Type`).
Accumulates `pendingTasks` and `completedTasks`.  Returns `none` when the
Go code dereferences a nil `entry.Task` pointer (a `TASK` record without
a task field crashes the process). -/
def recoverScan (ckey : LogEntry → String) :
    List WalLine → List (String × Product) → List String →
    Option (List (String × Product) × List String)
  | [], pend, comp => some (pend, comp)
  | WalLine.corrupt :: rest, pend, comp =>
      -- corrupt line: `json.Unmarshal` failed, `continue`
      recoverScan ckey rest pend comp
  | WalLine.entry e :: rest, pend, comp =>
      if e.type = "TASK" then
        match e.task with
        | some t => recoverScan ckey rest (insertA pend t.id t) comp
        | none => none
      else if e.type = "COMPLETE" then
        recoverScan ckey rest pend (ckey e :: comp)
      else
        -- unknown record kind: ignored by the `switch`
        recoverScan ckey rest pend comp

/-- Final filter of `WAL.Recover`: every pending task whose id is not in
`completedTasks` is returned.  (Go iterates the map in unspecified order;
the embedding returns insertion order, a refinement that fixes one of the
admissible orders.) -/
def recoverFilter (pc : List (String × Product) × List String) : List Product :=
  (pc.1.filter (fun kv => !pc.2.contains kv.1)).map (·.2)

/-- `WAL.Recover`, first source variant (src/unnamed/part_000 lines
74-120): completions keyed by `entry.TaskID`. -/
def recoverV1 (file : List WalLine) : Option (List Product) :=
  (recoverScan (fun e => e.taskID) file [] []).map recoverFilter

/-- `WAL.Recover`, second source variant (src/unnamed/part_000 lines
198-243): completions keyed by `entry.Type` — i.e. under the constant
string "COMPLETE" — instead of the task id. -/
def recoverV2 (file : List WalLine) : Option (List Product) :=
  (recoverScan (fun e => e.type) file [] []).map recoverFilter

/-- The snapshot carried by the last `TASK` record for `id` in file
order, if any (characterisation used to state the recovery claims). -/
def lastTaskSnap : List WalLine → String → Option Product
  | [], _ => none
  | line :: rest, id =>
      match lastTaskSnap rest id with
      | some p => some p
      | none =>
          match line with
          | WalLine.entry e =>
              if e.type = "TASK" then
                match e.task with
                | some t => if t.id = id then some t else none
                | none => none
              else none
          | WalLine.corrupt => none

/-- Keys of the pending map record the id of the stored snapshot
(the scan inserts under `entry.Task.ID`). -/
def KeysMatch (l : List (String × Product)) : Prop :=
  ∀ kv ∈ l, (kv : String × Product).2.id = kv.1

/-- Go map semantics: the key set of the pending map has no duplicates. -/
def NodupKeys (l : List (String × Product)) : Prop :=
  (l.map Prod.fst).Nodup

theorem lookupP_insertA (l : List (String × Product)) (k j : String) (v : Product) :
    lookupP (insertA l k v) j = if j = k then some v else lookupP l j := by
  induction l with
  | nil => simp [insertA, lookupP, eq_comm]
  | cons kv rest ih =>
      by_cases hk : kv.1 = k
      · by_cases hj : k = j <;> simp [insertA, lookupP, hk, hj, eq_comm]
      · by_cases hj : kv.1 = j
        · have : ¬ j = k := fun h => hk (hj.trans h)
          simp [insertA, lookupP, hk, hj, this]
        · simp [insertA, lookupP, hk, hj, ih]

theorem keysMatch_insertA {l : List (String × Product)} (h : KeysMatch l) (v : Product) :
    KeysMatch (insertA l v.id v) := by
  induction l with
  | nil => intro kv hkv; simp [insertA] at hkv; simp [hkv]
  | cons kv0 rest ih =>
      have h0 := h kv0 (List.mem_cons_self _ _)
      have hrest : KeysMatch rest := fun kv hkv => h kv (List.mem_cons_of_mem _ hkv)
      intro kv hkv
      by_cases hk : kv0.1 = v.id
      · simp [insertA, hk] at hkv
        rcases hkv with hkv | hkv
        · simp [hkv]
        · exact hrest kv hkv
      · simp [insertA, hk] at hkv
        rcases hkv with hkv | hkv
        · simp [hkv, h0]
        · exact ih hrest kv hkv

theorem mem_keys_insertA {l : List (String × Product)} {k j : String} {v : Product}
    (h : j ∈ (insertA l k v).map Prod.fst) : j = k ∨ j ∈ l.map Prod.fst := by
  induction l with
  | nil =>
      rw [insertA] at h
      simp at h
      exact Or.inl h
  | cons kv rest ih =>
      by_cases hk : kv.1 = k
      · rw [insertA, if_pos hk] at h
        rw [List.map_cons, List.mem_cons] at h
        rcases h with h | h
        · exact Or.inl h
        · exact Or.inr (by rw [List.map_cons, List.mem_cons]; exact Or.inr h)
      · rw [insertA, if_neg hk] at h
        rw [List.map_cons, List.mem_cons] at h
        rcases h with h | h
        · exact Or.inr (by rw [List.map_cons, List.mem_cons]; exact Or.inl h)
        · rcases ih h with h2 | h2
          · exact Or.inl h2
          · exact Or.inr (by rw [List.map_cons, List.mem_cons]; exact Or.inr h2)

theorem nodupKeys_insertA {l : List (String × Product)} (h : NodupKeys l)
    (k : String) (v : Product) : NodupKeys (insertA l k v) := by
  induction l with
  | nil =>
      unfold NodupKeys
      rw [insertA]
      simp
  | cons kv rest ih =>
      have hrest : NodupKeys rest := (List.nodup_cons.mp h).2
      have hnot : kv.1 ∉ rest.map Prod.fst := (List.nodup_cons.mp h).1
      unfold NodupKeys
      by_cases hk : kv.1 = k
      · rw [insertA, if_pos hk, List.map_cons, List.nodup_cons]
        exact ⟨fun h2 => hnot (hk ▸ h2), hrest⟩
      · rw [insertA, if_neg hk, List.map_cons, List.nodup_cons]
        refine ⟨fun h2 => ?_, ih hrest⟩
        rcases mem_keys_insertA h2 with h3 | h3
        · exact hk h3
        · exact hnot h3

theorem lookupP_of_mem {l : List (String × Product)} {k : String} {v : Product}
    (hnd : NodupKeys l) (h : (k, v) ∈ l) : lookupP l k = some v := by
  induction l with
  | nil => simp at h
  | cons kv rest ih =>
      have hnot : kv.1 ∉ rest.map Prod.fst := (List.nodup_cons.mp hnd).1
      rcases List.mem_cons.mp h with h0 | h0
      · simp [lookupP, ← h0]
      · have hk : kv.1 ≠ k := by
          intro he
          exact hnot (he ▸ (List.mem_map.mpr ⟨(k, v), h0, rfl⟩))
        simp [lookupP, hk]
        exact ih (List.nodup_cons.mp hnd).2 h0

/-- The pending map computed by the scan looks up to the last `TASK`
snapshot for a given id, falling back to the initial map. -/
theorem recoverScan_lookup (ckey : LogEntry → String) (file : List WalLine)
    (pend : List (String × Product)) (comp : List String)
    (p2 : List (String × Product)) (c2 : List String)
    (h : recoverScan ckey file pend comp = some (p2, c2)) (j : String) :
    lookupP p2 j =
      match lastTaskSnap file j with
      | some p => some p
      | none => lookupP pend j := by
  induction file generalizing pend comp with
  | nil =>
      simp [recoverScan] at h
      simp [lastTaskSnap, h.1]
  | cons line rest ih =>
      cases line with
      | corrupt =>
          simp only [recoverScan] at h
          have := ih pend comp h
          rw [this]
          cases hlast : lastTaskSnap rest j <;> simp [lastTaskSnap, hlast]
      | entry e =>
          by_cases ht : e.type = "TASK"
          · cases htask : e.task with
            | none => simp [recoverScan, ht, htask] at h
            | some t =>
                simp only [recoverScan, ht, if_pos, htask] at h
                have := ih (insertA pend t.id t) comp h
                rw [this]
                cases hlast : lastTaskSnap rest j with
                | some p => simp [lastTaskSnap, hlast]
                | none =>
                    simp only [lastTaskSnap, hlast]
                    rw [lookupP_insertA]
                    by_cases hj : t.id = j
                    · simp [ht, htask, hj]
                    · have : ¬ j = t.id := fun h2 => hj h2.symm
                      simp [ht, htask, hj, this]
          · by_cases hc : e.type = "COMPLETE"
            · simp only [recoverScan, ht, hc, if_neg, if_pos, reduceIte] at h
              have := ih pend (ckey e :: comp) h
              rw [this]
              cases hlast : lastTaskSnap rest j <;> simp [lastTaskSnap, hlast, ht]
            · simp only [recoverScan, ht, hc, if_neg, reduceIte] at h
              have := ih pend comp h
              rw [this]
              cases hlast : lastTaskSnap rest j <;> simp [lastTaskSnap, hlast, ht]

theorem recoverScan_keysMatch (ckey : LogEntry → String) (file : List WalLine)
    (pend : List (String × Product)) (comp : List String)
    (p2 : List (String × Product)) (c2 : List String)
    (h : recoverScan ckey file pend comp = some (p2, c2))
    (hk : KeysMatch pend) : KeysMatch p2 := by
  induction file generalizing pend comp with
  | nil =>
      simp [recoverScan] at h
      exact h.1 ▸ hk
  | cons line rest ih =>
      cases line with
      | corrupt => exact ih pend comp h hk
      | entry e =>
          by_cases ht : e.type = "TASK"
          · cases htask : e.task with
            | none => simp [recoverScan, ht, htask] at h
            | some t =>
                simp only [recoverScan, ht, if_pos, htask] at h
                exact ih _ comp h (keysMatch_insertA hk t)
          · by_cases hc : e.type = "COMPLETE"
            · simp only [recoverScan, ht, hc, if_neg, if_pos, reduceIte] at h
              exact ih pend _ h hk
            · simp only [recoverScan, ht, hc, if_neg, reduceIte] at h
              exact ih pend comp h hk

theorem recoverScan_nodupKeys (ckey : LogEntry → String) (file : List WalLine)
    (pend : List (String × Product)) (comp : List String)
    (p2 : List (String × Product)) (c2 : List String)
    (h : recoverScan ckey file pend comp = some (p2, c2))
    (hk : NodupKeys pend) : NodupKeys p2 := by
  induction file generalizing pend comp with
  | nil =>
      simp [recoverScan] at h
      exact h.1 ▸ hk
  | cons line rest ih =>
      cases line with
      | corrupt => exact ih pend comp h hk
      | entry e =>
          by_cases ht : e.type = "TASK"
          · cases htask : e.task with
            | none => simp [recoverScan, ht, htask] at h
            | some t =>
                simp only [recoverScan, ht, if_pos, htask] at h
                exact ih _ comp h (nodupKeys_insertA hk t.id t)
          · by_cases hc : e.type = "COMPLETE"
            · simp only [recoverScan, ht, hc, if_neg, if_pos, reduceIte] at h
              exact ih pend _ h hk
            · simp only [recoverScan, ht, hc, if_neg, reduceIte] at h
              exact ih pend comp h hk

theorem countP_id_le_one {l : List (String × Product)} (hm : KeysMatch l)
    (hnd : NodupKeys l) (id : String) :
    (l.map Prod.snd).countP (fun p => p.id == id) ≤ 1 := by
  induction l with
  | nil => simp
  | cons kv rest ih =>
      have hm0 := hm kv (List.mem_cons_self _ _)
      have hmrest : KeysMatch rest := fun x hx => hm x (List.mem_cons_of_mem _ hx)
      have hnot : kv.1 ∉ rest.map Prod.fst := (List.nodup_cons.mp hnd).1
      have hndrest : NodupKeys rest := (List.nodup_cons.mp hnd).2
      simp only [List.map_cons, List.countP_cons]
      by_cases hid : kv.2.id = id
      · have hzero : (rest.map Prod.snd).countP (fun p => p.id == id) = 0 := by
          apply List.countP_eq_zero.mpr
          intro p hp
          rcases List.mem_map.mp hp with ⟨x, hx, hxp⟩
          have : p.id = x.1 := hxp ▸ hmrest x hx
          simp only [beq_iff_eq]
          intro hpe
          apply hnot
          have : x.1 = id := this ▸ hpe
          rw [← hid] at this
          rw [hm0] at this
          exact this ▸ List.mem_map.mpr ⟨x, hx, rfl⟩
        simp [hzero, hid]
      · have hb : (kv.2.id == id) = false := by simp [hid]
        simp only [hb, if_false]
        simpa using ih hmrest hndrest

theorem keysMatch_filter {l : List (String × Product)} (h : KeysMatch l)
    (q : String × Product → Bool) : KeysMatch (l.filter q) :=
  fun kv hkv => h kv (List.mem_of_mem_filter hkv)

theorem nodupKeys_filter {l : List (String × Product)} (h : NodupKeys l)
    (q : String × Product → Bool) : NodupKeys (l.filter q) :=
  List.Nodup.sublist (List.Sublist.map Prod.fst (List.filter_sublist l)) h

/-- Example order snapshot used in concrete WAL evaluations. -/
def prodA : Product :=
  { id := "A", type := "pcb_double_layer", priority := 0, step := 0,
    history := [], status := "", attrs := [] }

/-- A later snapshot of the same order (different priority). -/
def prodA2 : Product :=
  { id := "A", type := "pcb_double_layer", priority := 5, step := 0,
    history := [], status := "", attrs := [] }

/-- WAL contents: a `TASK` record for order "A" followed by a `COMPLETE`
record for "A". -/
def fileTaskComplete : List WalLine :=
  [WalLine.entry { type := "TASK", task := some prodA, taskID := "" },
   WalLine.entry { type := "COMPLETE", task := none, taskID := "A" }]

/-- C1: on a log holding a `TASK` record for "A" and a `COMPLETE` record
for "A", the claim (and the first source variant) yields the empty set,
but the second source variant of `WAL.Recover` — which stores completions
under `entry.Type`, the constant string "COMPLETE", instead of
`entry.TaskID` — still returns order "A". -/
theorem recover_complete_key_bug :
    recoverV1 fileTaskComplete = some [] ∧
    recoverV2 fileTaskComplete = some [prodA] := by
  constructor <;> rfl

/-- C10: recovery is keyed by order id; on a well-formed scan the result
holds at most one snapshot per id, namely the one carried by the last
`TASK` record for that id in file order. -/
theorem recover_keyed_by_last_task (file : List WalLine) (l : List Product) (id : String)
    (h : recoverV1 file = some l) :
    l.countP (fun p => p.id == id) ≤ 1 ∧
    ∀ p ∈ l, p.id = id → lastTaskSnap file id = some p := by
  unfold recoverV1 at h
  cases hscan : recoverScan (fun e => e.taskID) file [] [] with
  | none => rw [hscan] at h; simp at h
  | some pc =>
      obtain ⟨p2, c2⟩ := pc
      rw [hscan] at h
      rw [Option.map_some'] at h
      rw [Option.some_inj] at h
      have hkm : KeysMatch p2 :=
        recoverScan_keysMatch _ file [] [] p2 c2 hscan (by intro kv hkv; simp at hkv)
      have hnd : NodupKeys p2 :=
        recoverScan_nodupKeys _ file [] [] p2 c2 hscan (by simp [NodupKeys])
      have hl : l = (p2.filter (fun kv => !c2.contains kv.1)).map Prod.snd := by
        rw [← h]; rfl
      constructor
      · rw [hl]
        exact countP_id_le_one (keysMatch_filter hkm _) (nodupKeys_filter hnd _) id
      · intro p hp hpid
        rw [hl] at hp
        rcases List.mem_map.mp hp with ⟨kv, hkv, hkvp⟩
        have hkv2 : kv ∈ p2 := List.mem_of_mem_filter hkv
        have hkey : kv.1 = id := by
          have := hkm kv hkv2
          rw [hkvp, hpid] at this
          exact this.symm
        have hmem : (id, p) ∈ p2 := by
          have : kv = (id, p) := by
            cases kv with
            | mk a b =>
                simp only at hkey hkvp
                rw [hkey, hkvp]
          exact this ▸ hkv2
        have hlook : lookupP p2 id = some p := lookupP_of_mem hnd hmem
        have hchar := recoverScan_lookup _ file [] [] p2 c2 hscan id
        rw [hlook] at hchar
        cases hlast : lastTaskSnap file id with
        | none => rw [hlast] at hchar; simp [lookupP] at hchar
        | some q => rw [hlast] at hchar; simp at hchar; rw [hchar]

/-- WAL contents with two `TASK` records for order "A": the second
snapshot must win. -/
def fileTwoTasks : List WalLine :=
  [WalLine.entry { type := "TASK", task := some prodA, taskID := "" },
   WalLine.entry { type := "TASK", task := some prodA2, taskID := "" }]

/-- Witness for C10 at a concrete log: recovery of `fileTwoTasks` yields
exactly the second snapshot of order "A". -/
theorem recover_keyed_by_last_task_witness :
    ([prodA2].countP (fun p => p.id == "A") ≤ 1 ∧
     ∀ p ∈ [prodA2], p.id = "A" → lastTaskSnap fileTwoTasks "A" = some p) :=
  recover_keyed_by_last_task fileTwoTasks [prodA2] "A" (by rfl)

/-! ## FSM (internal/fsm/fsm.go)

One instance per order; `Fire` consults a transition table built by
`initTransitions`.  Callbacks only observe transitions (they cannot
change `Current`), so they are not modelled.
-/

/-- `fsm.State`. -/
inductive FsmState where
  | created
  | processing
  | qualityCheck
  | completed
  | failed
  | compensating
  | compensated
deriving DecidableEq, Repr

/-- `fsm.Event`. -/
inductive FsmEvent where
  | start
  | enterQC
  | passQC
  | finish
  | fail
  | compensate
  | rollbackDone
deriving DecidableEq, Repr

/-- The transition table built by `FSM.initTransitions`, in insertion
order (each `(from, event)` pair is inserted once, so order is
immaterial). -/
def transitionTable : List ((FsmState × FsmEvent) × FsmState) :=
  [((FsmState.created, FsmEvent.start), FsmState.processing),
   ((FsmState.processing, FsmEvent.enterQC), FsmState.qualityCheck),
   ((FsmState.processing, FsmEvent.finish), FsmState.completed),
   ((FsmState.processing, FsmEvent.fail), FsmState.failed),
   ((FsmState.qualityCheck, FsmEvent.passQC), FsmState.processing),
   ((FsmState.qualityCheck, FsmEvent.finish), FsmState.completed),
   ((FsmState.qualityCheck, FsmEvent.fail), FsmState.failed),
   ((FsmState.failed, FsmEvent.compensate), FsmState.compensating),
   ((FsmState.compensating, FsmEvent.rollbackDone), FsmState.compensated)]

/-- The nested map read `f.transitions[f.Current][event]` (a missing
entry yields the zero value with `ok = false`). -/
def lookupTransition (s : FsmState) (e : FsmEvent) : Option FsmState :=
  (transitionTable.find? (fun r => r.1 == (s, e))).map (·.2)

/-- `fsm.FSM`: mutable state is `Current`; `TargetID` is the bound order
id. -/
structure FSM where
  current : FsmState
  targetID : String
deriving DecidableEq, Repr

/-- `fsm.NewFSM`. -/
def NewFSM (targetID : String) : FSM :=
  { current := FsmState.created, targetID := targetID }

/-- `FSM.Fire`: on a legal `(Current, event)` pair, set `Current` to the
table's target and return no error; otherwise return an error and leave
the state untouched.  The returned pair is (state after the call, error). -/
def Fire (f : FSM) (e : FsmEvent) : FSM × Option String :=
  match lookupTransition f.current e with
  | some ns => ({ f with current := ns }, none)
  | none => (f, some "invalid transition")

/-- The legal-transition table exactly as the specification's §4.3 table
states it (spec-side definition, compared against the code's table). -/
def specTransition (s : FsmState) (e : FsmEvent) : Option FsmState :=
  match s, e with
  | FsmState.created, FsmEvent.start => some FsmState.processing
  | FsmState.processing, FsmEvent.enterQC => some FsmState.qualityCheck
  | FsmState.processing, FsmEvent.finish => some FsmState.completed
  | FsmState.processing, FsmEvent.fail => some FsmState.failed
  | FsmState.qualityCheck, FsmEvent.passQC => some FsmState.processing
  | FsmState.qualityCheck, FsmEvent.finish => some FsmState.completed
  | FsmState.qualityCheck, FsmEvent.fail => some FsmState.failed
  | FsmState.failed, FsmEvent.compensate => some FsmState.compensating
  | FsmState.compensating, FsmEvent.rollbackDone => some FsmState.compensated
  | _, _ => none

/-- C7: a fresh FSM starts in `Created`; `Fire` follows the §4.3 table
exactly: a legal `(state, event)` pair moves `Current` to the table's
target with no error, any other pair returns an error and leaves
`Current` unchanged. -/
theorem fsm_fire_follows_table (f : FSM) (e : FsmEvent) (id : String) :
    (NewFSM id).current = FsmState.created ∧
    (match specTransition f.current e with
     | some t => Fire f e = ({ f with current := t }, none)
     | none => (Fire f e).1 = f ∧ ((Fire f e).2.isSome = true)) := by
  refine ⟨rfl, ?_⟩
  obtain ⟨s, tid⟩ := f
  cases s <;> cases e <;> first
    | rfl
    | exact ⟨rfl, rfl⟩

/-! ## Workflow engine (internal/engine/workflow.go)

`Process` drives one order through its workflow: resolve the step
sequence, gate each step on its rule, execute the step's stations,
publish events, and on a step failure run Saga rollback.

The embedding produces the sequential trace of observable actions of one
`Process` invocation.  Stations inside a step run concurrently in Go and
are joined before the failure check; the embedding serialises them in
declaration order (the only order the claims speak about).  Station
bodies and the `expr` rule library are external and appear as oracles in
`EngineEnv`.  Events carry their type, order id and station id; the
`Product` pointer, error and duration payloads do not affect control
flow and are omitted.
-/

abbrev StationID := String

/-- `types.WorkflowStep`: one step is one or more stations plus an
optional rule expression. -/
structure WorkflowStep where
  stationIDs : List StationID
  rule : String
deriving DecidableEq, Repr

/-- `event.EventType`. -/
inductive EventType where
  | productStarted
  | productCompleted
  | productFailed
  | productCompensated
  | stepStarted
  | stepCompleted
deriving DecidableEq, Repr

/-- `event.Event`, restricted to the fields the claims mention. -/
structure Event where
  type : EventType
  productID : String
  stationID : StationID := ""
deriving DecidableEq, Repr

/-- One observable action of a `Process` invocation. -/
inductive Action where
  | publish (e : Event)
  | execCall (s : StationID) (ok : Bool)
  | compCall (s : StationID)
deriving DecidableEq, Repr

/-- Outcome of compiling-and-running a rule through the external
`antonmedv/expr` library: a boolean result, a result of another type, a
compilation error, or a runtime error. -/
inductive ExprOutcome where
  | boolVal (b : Bool)
  | nonBool
  | compileError
  | runtimeError
deriving DecidableEq, Repr

/-- `types.Result`, restricted to the fields `Process` consults. -/
structure StepResult where
  productID : String
  success : Bool
deriving DecidableEq, Repr

/-- The engine's fixed collaborators: the workflow table, the set of
registered station ids, the opaque station bodies (success flag of
`station.Execute`), and the external rule evaluator. -/
structure EngineEnv where
  workflows : List (String × List WorkflowStep)
  stations : List StationID
  exec : StationID → Product → Bool
  evalExpr : String → Product → ExprOutcome

/-- Go map read on the workflow table (`e.workflows[key]`). -/
def lookupW (l : List (String × List WorkflowStep)) (k : String) :
    Option (List WorkflowStep) :=
  (l.find? (fun kv => kv.1 == k)).map (·.2)

/-- `strings.ToLower`, embedded as a per-character map over the string's
characters (the repository's workflow keys and order types are ASCII,
where this agrees with Go's Unicode case folding). -/
def lowerStr (s : String) : String :=
  String.mk (s.data.map Char.toLower)

/-- Workflow resolution in `Process` (workflow.go:125-130): look the
order type up lower-cased (Viper lower-cases config keys); if absent,
fall back to the `"pcb_double_layer"` entry (a missing fallback is the
nil slice, i.e. the empty sequence). -/
def resolveWorkflow (ws : List (String × List WorkflowStep)) (ptype : String) :
    List WorkflowStep :=
  match lookupW ws (lowerStr ptype) with
  | some seq => seq
  | none => (lookupW ws "pcb_double_layer").getD []

/-- `WorkflowEngine.evaluateRule` (workflow.go:161-179).  Returns
`(shouldSkip, err?)` where the second component records whether an error
was produced: empty rule ⇒ `(false, no error)`; compile error, runtime
error and non-boolean result ⇒ `(true, error)`; boolean result `b` ⇒
`(!b, no error)`. -/
def evaluateRule (env : EngineEnv) (rule : String) (p : Product) : Bool × Bool :=
  if rule = "" then (false, false)
  else
    match env.evalExpr rule p with
    | ExprOutcome.compileError => (true, true)
    | ExprOutcome.runtimeError => (true, true)
    | ExprOutcome.nonBool => (true, true)
    | ExprOutcome.boolVal shouldExecute => (!shouldExecute, false)

/-- One station of a step inside `executeStep` (workflow.go:186-215): a
registered station publishes `StepStarted`, executes, publishes
`StepCompleted`, and occupies its slot of the `stations` slice; a
missing station produces a failed result and no events, and its slice
slot stays nil. -/
def execStation (env : EngineEnv) (p : Product) (sID : StationID) :
    List Action × StepResult × Option StationID :=
  if env.stations.contains sID then
    let ok := env.exec sID p
    ([Action.publish { type := EventType.stepStarted, productID := p.id, stationID := sID },
      Action.execCall sID ok,
      Action.publish { type := EventType.stepCompleted, productID := p.id, stationID := sID }],
     { productID := p.id, success := ok }, some sID)
  else
    ([], { productID := p.id, success := false }, none)

/-- `WorkflowEngine.executeStep` over the station ids of one step:
actions, per-station results, and the `stations` slice (nil slots for
missing stations). -/
def executeStep (env : EngineEnv) (p : Product) :
    List StationID → List Action × List StepResult × List (Option StationID)
  | [] => ([], [], [])
  | sID :: rest =>
      let one := execStation env p sID
      let more := executeStep env p rest
      (one.1 ++ more.1, one.2.1 :: more.2.1, one.2.2 :: more.2.2)

/-- `WorkflowEngine.checkStepFailure`: a step failed iff some station
result is unsuccessful. -/
def checkStepFailure (results : List StepResult) : Bool :=
  results.any (fun r => !r.success)

/-- `WorkflowEngine.rollback` (workflow.go:229-236): compensate the
executed stations in reverse order, then publish `ProductCompensated`. -/
def rollbackActions (pid : String) (executed : List StationID) : List Action :=
  (executed.reverse.map Action.compCall) ++
    [Action.publish { type := EventType.productCompensated, productID := pid }]

/-- The step loop of `Process` (workflow.go:133-158).  `i` is the loop
index (written into `p.Step` before the rule check), `executed` the
`executedStations` accumulator.  A rule error is logged and the step
skipped; a skip continues; otherwise the step executes, and a failure
publishes `ProductFailed`, runs rollback and returns.  After the last
step `ProductCompleted` is published. -/
def processLoop (env : EngineEnv) (p : Product) :
    List WorkflowStep → Nat → List StationID → List Action
  | [], _, _ =>
      [Action.publish { type := EventType.productCompleted, productID := p.id }]
  | step :: rest, i, executed =>
      if (evaluateRule env step.rule { p with step := (i : Int) }).2 then
        processLoop env p rest (i + 1) executed
      else if (evaluateRule env step.rule { p with step := (i : Int) }).1 then
        processLoop env p rest (i + 1) executed
      else
        if checkStepFailure
            (executeStep env { p with step := (i : Int) } step.stationIDs).2.1 then
          (executeStep env { p with step := (i : Int) } step.stationIDs).1 ++
            Action.publish { type := EventType.productFailed, productID := p.id } ::
            rollbackActions p.id executed
        else
          (executeStep env { p with step := (i : Int) } step.stationIDs).1 ++
            processLoop env p rest (i + 1)
              (executed ++
                (executeStep env { p with step := (i : Int) }
                    step.stationIDs).2.2.filterMap id)

/-- `WorkflowEngine.Process` (workflow.go:113-159): publish
`ProductStarted`, resolve the workflow, run the step loop. -/
def Process (env : EngineEnv) (p : Product) : List Action :=
  Action.publish { type := EventType.productStarted, productID := p.id } ::
    processLoop env p (resolveWorkflow env.workflows p.type) 0 []

/-- Characterisation of the run of the step loop: `none` when no
executed step fails (the loop reaches the end), `some executed` when
some executed step fails with `executed` the accumulated station list of
the earlier fully-successful steps. -/
def failureSplit (env : EngineEnv) (p : Product) :
    List WorkflowStep → Nat → List StationID → Option (List StationID)
  | [], _, _ => none
  | step :: rest, i, executed =>
      if (evaluateRule env step.rule { p with step := (i : Int) }).2 then
        failureSplit env p rest (i + 1) executed
      else if (evaluateRule env step.rule { p with step := (i : Int) }).1 then
        failureSplit env p rest (i + 1) executed
      else
        if checkStepFailure
            (executeStep env { p with step := (i : Int) } step.stationIDs).2.1 then
          some executed
        else
          failureSplit env p rest (i + 1)
            (executed ++
              (executeStep env { p with step := (i : Int) }
                  step.stationIDs).2.2.filterMap id)

/-- Actions emitted while a step executes (as opposed to lifecycle
publishes and compensation calls). -/
def isStepAction : Action → Bool
  | Action.publish e =>
      e.type == EventType.stepStarted || e.type == EventType.stepCompleted
  | Action.execCall _ _ => true
  | Action.compCall _ => false

/-- Terminal lifecycle publishes. -/
def isTerminal : Action → Bool
  | Action.publish e =>
      e.type == EventType.productCompleted || e.type == EventType.productCompensated
  | _ => false

theorem stepAction_not_terminal {a : Action} (h : isStepAction a = true) :
    isTerminal a = false := by
  cases a with
  | publish e =>
      simp only [isStepAction, Bool.or_eq_true, beq_iff_eq] at h
      rcases h with h | h <;> simp [isTerminal, h]
  | execCall s ok => rfl
  | compCall s => rfl

theorem execStation_pos {env : EngineEnv} {p : Product} {s : StationID}
    (hc : env.stations.contains s = true) :
    execStation env p s =
      ([Action.publish { type := EventType.stepStarted, productID := p.id, stationID := s },
        Action.execCall s (env.exec s p),
        Action.publish { type := EventType.stepCompleted, productID := p.id, stationID := s }],
       { productID := p.id, success := env.exec s p }, some s) := by
  unfold execStation
  rw [if_pos hc]

theorem execStation_neg {env : EngineEnv} {p : Product} {s : StationID}
    (hc : env.stations.contains s = false) :
    execStation env p s =
      ([], { productID := p.id, success := false }, none) := by
  unfold execStation
  rw [if_neg]
  intro h
  rw [hc] at h
  exact Bool.false_ne_true h

theorem stepAction_not_comp {a : Action} (h : isStepAction a = true) (s : StationID) :
    a ≠ Action.compCall s := by
  intro he
  rw [he] at h
  simp [isStepAction] at h

theorem stepAction_not_publish {a : Action} (h : isStepAction a = true)
    {t : EventType} (ht : t ≠ EventType.stepStarted ∧ t ≠ EventType.stepCompleted)
    (e : Event) (het : e.type = t) : a ≠ Action.publish e := by
  intro he
  rw [he] at h
  simp only [isStepAction, Bool.or_eq_true, beq_iff_eq] at h
  rcases h with h | h
  · exact ht.1 (het ▸ h)
  · exact ht.2 (het ▸ h)

theorem executeStep_all_stepActions (env : EngineEnv) (p : Product)
    (ids : List StationID) :
    ∀ a ∈ (executeStep env p ids).1, isStepAction a = true := by
  induction ids with
  | nil => intro a ha; simp [executeStep] at ha
  | cons s rest ih =>
      intro a ha
      simp only [executeStep, List.mem_append] at ha
      rcases ha with ha | ha
      · cases hc : env.stations.contains s with
        | true =>
            rw [execStation_pos hc] at ha
            simp at ha
            rcases ha with rfl | rfl | rfl <;> rfl
        | false =>
            rw [execStation_neg hc] at ha
            simp at ha
      · exact ih a ha

/-- If a step did not fail, every station slot of its `stations` slice is
occupied (a missing station would have produced a failed result), and in
declaration order: the executed list gains exactly `step.stationIDs`. -/
theorem executeStep_success_slots (env : EngineEnv) (p : Product)
    (ids : List StationID)
    (h : checkStepFailure (executeStep env p ids).2.1 = false) :
    (executeStep env p ids).2.2.filterMap id = ids := by
  induction ids with
  | nil => rfl
  | cons s rest ih =>
      unfold checkStepFailure at h ih
      simp only [executeStep, List.any_cons, Bool.or_eq_false_iff] at h
      obtain ⟨h1, h2⟩ := h
      cases hc : env.stations.contains s with
      | true =>
          simp only [executeStep]
          rw [execStation_pos hc]
          simp only [List.filterMap_cons, id]
          rw [ih h2]
      | false =>
          rw [execStation_neg hc] at h1
          simp at h1

/-- Shape of the step loop: when no executed step fails the trace is
step actions followed by a single `ProductCompleted`; when an executed
step fails it is step actions followed by `ProductFailed` and the
rollback of the accumulated executed list. -/
theorem processLoop_shape (env : EngineEnv) (p : Product) (steps : List WorkflowStep) :
    ∀ (i : Nat) (executed : List StationID),
    (match failureSplit env p steps i executed with
     | some l => ∃ pre, processLoop env p steps i executed =
           pre ++ Action.publish { type := EventType.productFailed, productID := p.id } ::
             rollbackActions p.id l ∧ ∀ a ∈ pre, isStepAction a = true
     | none => ∃ pre, processLoop env p steps i executed =
           pre ++ [Action.publish { type := EventType.productCompleted, productID := p.id }] ∧
           ∀ a ∈ pre, isStepAction a = true) := by
  induction steps with
  | nil =>
      intro i executed
      exact ⟨[], rfl, by intro a ha; simp at ha⟩
  | cons step rest ih =>
      intro i executed
      by_cases h2 : (evaluateRule env step.rule { p with step := (i : Int) }).2
      · have hfs : failureSplit env p (step :: rest) i executed =
            failureSplit env p rest (i + 1) executed := by
          rw [failureSplit, if_pos h2]
        have hpl : processLoop env p (step :: rest) i executed =
            processLoop env p rest (i + 1) executed := by
          rw [processLoop, if_pos h2]
        rw [hfs, hpl]
        exact ih (i + 1) executed
      · by_cases h1 : (evaluateRule env step.rule { p with step := (i : Int) }).1
        · have hfs : failureSplit env p (step :: rest) i executed =
              failureSplit env p rest (i + 1) executed := by
            rw [failureSplit, if_neg h2, if_pos h1]
          have hpl : processLoop env p (step :: rest) i executed =
              processLoop env p rest (i + 1) executed := by
            rw [processLoop, if_neg h2, if_pos h1]
          rw [hfs, hpl]
          exact ih (i + 1) executed
        · by_cases hf : checkStepFailure
              (executeStep env { p with step := (i : Int) } step.stationIDs).2.1
          · have hfs : failureSplit env p (step :: rest) i executed = some executed := by
              rw [failureSplit, if_neg h2, if_neg h1, if_pos hf]
            have hpl : processLoop env p (step :: rest) i executed =
                (executeStep env { p with step := (i : Int) } step.stationIDs).1 ++
                  Action.publish { type := EventType.productFailed, productID := p.id } ::
                  rollbackActions p.id executed := by
              rw [processLoop, if_neg h2, if_neg h1, if_pos hf]
            rw [hfs]
            exact ⟨_, hpl, executeStep_all_stepActions env _ _⟩
          · have hfs : failureSplit env p (step :: rest) i executed =
                failureSplit env p rest (i + 1)
                  (executed ++
                    (executeStep env { p with step := (i : Int) }
                        step.stationIDs).2.2.filterMap id) := by
              rw [failureSplit, if_neg h2, if_neg h1, if_neg hf]
            have hpl : processLoop env p (step :: rest) i executed =
                (executeStep env { p with step := (i : Int) } step.stationIDs).1 ++
                  processLoop env p rest (i + 1)
                    (executed ++
                      (executeStep env { p with step := (i : Int) }
                          step.stationIDs).2.2.filterMap id) := by
              rw [processLoop, if_neg h2, if_neg h1, if_neg hf]
            rw [hfs, hpl]
            have hih := ih (i + 1)
              (executed ++
                (executeStep env { p with step := (i : Int) }
                    step.stationIDs).2.2.filterMap id)
            cases hsplit : failureSplit env p rest (i + 1)
                (executed ++
                  (executeStep env { p with step := (i : Int) }
                      step.stationIDs).2.2.filterMap id) with
            | some l =>
                rw [hsplit] at hih
                obtain ⟨pre, hpre, hall⟩ := hih
                refine ⟨(executeStep env { p with step := (i : Int) } step.stationIDs).1 ++ pre,
                  ?_, ?_⟩
                · rw [hpre, List.append_assoc]
                · intro a ha
                  rcases List.mem_append.mp ha with ha | ha
                  · exact executeStep_all_stepActions env _ _ a ha
                  · exact hall a ha
            | none =>
                rw [hsplit] at hih
                obtain ⟨pre, hpre, hall⟩ := hih
                refine ⟨(executeStep env { p with step := (i : Int) } step.stationIDs).1 ++ pre,
                  ?_, ?_⟩
                · rw [hpre, List.append_assoc]
                · intro a ha
                  rcases List.mem_append.mp ha with ha | ha
                  · exact executeStep_all_stepActions env _ _ a ha
                  · exact hall a ha

theorem lookupW_of_mem {ws : List (String × List WorkflowStep)} {k : String}
    {w : List WorkflowStep} (hnd : (ws.map Prod.fst).Nodup) (h : (k, w) ∈ ws) :
    lookupW ws k = some w := by
  induction ws with
  | nil => simp at h
  | cons kv rest ih =>
      have hnot : kv.1 ∉ rest.map Prod.fst := (List.nodup_cons.mp hnd).1
      rcases List.mem_cons.mp h with h0 | h0
      · rw [← h0]
        unfold lookupW
        simp [List.find?]
      · have hk : (kv.1 == k) = false := by
          simp only [beq_eq_false_iff_ne]
          intro he
          exact hnot (he ▸ List.mem_map.mpr ⟨(k, w), h0, rfl⟩)
        unfold lookupW
        simp only [List.find?, hk]
        exact ih (List.nodup_cons.mp hnd).2 h0

/-- C5: resolution of the workflow for an order.  Under the config-loader
contract that workflow keys arrive lower-cased (and, being Go map keys,
distinct): if no key matches the lower-cased order type the resolved
sequence is the `"pcb_double_layer"` (default double-layer PCB) entry;
and an order whose type differs from a configured key only in letter
case resolves to that key's workflow. -/
theorem workflow_resolution (ws : List (String × List WorkflowStep)) (ptype : String)
    (hlow : ∀ kv ∈ ws, lowerStr (kv : String × List WorkflowStep).1 = kv.1)
    (hnd : (ws.map Prod.fst).Nodup) :
    ((∀ kv ∈ ws, (kv : String × List WorkflowStep).1 ≠ lowerStr ptype) →
       resolveWorkflow ws ptype = (lookupW ws "pcb_double_layer").getD []) ∧
    (∀ k w, (k, w) ∈ ws → lowerStr k = lowerStr ptype →
       resolveWorkflow ws ptype = w) := by
  constructor
  · intro hnone
    have hfind : lookupW ws (lowerStr ptype) = none := by
      unfold lookupW
      rw [List.find?_eq_none.mpr]
      · rfl
      · intro kv hkv
        simp only [beq_eq_false_iff_ne, ne_eq, Bool.not_eq_true, beq_eq_false_iff_ne]
        exact hnone kv hkv
    unfold resolveWorkflow
    rw [hfind]
  · intro k w hmem hcase
    have hk : k = lowerStr ptype := by
      rw [← hcase]
      exact (hlow (k, w) hmem).symm
    have : lookupW ws (lowerStr ptype) = some w := lookupW_of_mem hnd (hk ▸ hmem)
    unfold resolveWorkflow
    rw [this]

/-- A demonstration workflow body. -/
def stepA : WorkflowStep := { stationIDs := ["A"], rule := "" }

/-- A second demonstration workflow body. -/
def stepB : WorkflowStep := { stationIDs := ["B"], rule := "" }

/-- Witness for C5 at a concrete table: key "a" is stored lower-cased
and an order of type "A" resolves to it. -/
theorem workflow_resolution_witness :
    ((∀ kv ∈ [("a", [stepA])], (kv : String × List WorkflowStep).1 ≠ lowerStr "A") →
       resolveWorkflow [("a", [stepA])] "A" =
         (lookupW [("a", [stepA])] "pcb_double_layer").getD []) ∧
    (∀ k w, (k, w) ∈ [("a", [stepA])] → lowerStr k = lowerStr "A" →
       resolveWorkflow [("a", [stepA])] "A" = w) :=
  workflow_resolution [("a", [stepA])] "A" (by decide) (by decide)

theorem execCall_mem_executeStep (env : EngineEnv) (p : Product)
    {ids : List StationID} {sID : StationID} (hmem : sID ∈ ids)
    (hc : env.stations.contains sID = true) :
    Action.execCall sID (env.exec sID p) ∈ (executeStep env p ids).1 := by
  induction ids with
  | nil => simp at hmem
  | cons s rest ih =>
      simp only [executeStep, List.mem_append]
      rcases List.mem_cons.mp hmem with h0 | h0
      · left
        subst h0
        rw [execStation_pos hc]
        simp
      · exact Or.inr (ih h0)

/-- C6: rule gating of one step at any position of the loop.  An empty
rule, or a rule evaluating to the boolean `true`, makes the step execute
(every registered station of the step is invoked); a rule evaluating to
the boolean `false` skips the step and the loop proceeds with the
remaining steps unchanged; a compile error, runtime error or non-boolean
result likewise skips the step and proceeds — it never fails the
order. -/
theorem rule_gating (env : EngineEnv) (p : Product) (step : WorkflowStep)
    (rest : List WorkflowStep) (i : Nat) (executed : List StationID) :
    (step.rule = "" →
       ∀ sID ∈ step.stationIDs, env.stations.contains sID = true →
         Action.execCall sID (env.exec sID { p with step := (i : Int) }) ∈
           processLoop env p (step :: rest) i executed) ∧
    (env.evalExpr step.rule { p with step := (i : Int) } = ExprOutcome.boolVal true →
       ∀ sID ∈ step.stationIDs, env.stations.contains sID = true →
         Action.execCall sID (env.exec sID { p with step := (i : Int) }) ∈
           processLoop env p (step :: rest) i executed) ∧
    (step.rule ≠ "" →
       env.evalExpr step.rule { p with step := (i : Int) } = ExprOutcome.boolVal false →
       processLoop env p (step :: rest) i executed =
         processLoop env p rest (i + 1) executed) ∧
    (step.rule ≠ "" →
       (env.evalExpr step.rule { p with step := (i : Int) } = ExprOutcome.compileError ∨
        env.evalExpr step.rule { p with step := (i : Int) } = ExprOutcome.runtimeError ∨
        env.evalExpr step.rule { p with step := (i : Int) } = ExprOutcome.nonBool) →
       processLoop env p (step :: rest) i executed =
         processLoop env p rest (i + 1) executed) := by
  have hexec : (evaluateRule env step.rule { p with step := (i : Int) }).2 = false →
      (evaluateRule env step.rule { p with step := (i : Int) }).1 = false →
      ∀ sID ∈ step.stationIDs, env.stations.contains sID = true →
        Action.execCall sID (env.exec sID { p with step := (i : Int) }) ∈
          processLoop env p (step :: rest) i executed := by
    intro h2 h1 sID hmem hc
    rw [processLoop, if_neg (by rw [h2]; exact Bool.false_ne_true),
        if_neg (by rw [h1]; exact Bool.false_ne_true)]
    by_cases hf : checkStepFailure
        (executeStep env { p with step := (i : Int) } step.stationIDs).2.1
    · rw [if_pos hf]
      exact List.mem_append_left _ (execCall_mem_executeStep env _ hmem hc)
    · rw [if_neg hf]
      exact List.mem_append_left _ (execCall_mem_executeStep env _ hmem hc)
  have hskip : (evaluateRule env step.rule { p with step := (i : Int) }).2 = true ∨
      (evaluateRule env step.rule { p with step := (i : Int) }).1 = true →
      processLoop env p (step :: rest) i executed =
        processLoop env p rest (i + 1) executed := by
    intro h
    by_cases h2 : (evaluateRule env step.rule { p with step := (i : Int) }).2
    · rw [processLoop, if_pos h2]
    · rcases h with h | h
      · exact absurd h h2
      · rw [processLoop, if_neg h2, if_pos h]
  refine ⟨?_, ?_, ?_, ?_⟩
  · intro hr
    apply hexec <;> simp [evaluateRule, hr]
  · intro hb
    by_cases hr : step.rule = ""
    · apply hexec <;> simp [evaluateRule, hr]
    · apply hexec <;> simp [evaluateRule, hr, hb]
  · intro hr hb
    apply hskip
    right
    simp [evaluateRule, hr, hb]
  · intro hr hb
    apply hskip
    left
    rcases hb with hb | hb | hb <;> simp [evaluateRule, hr, hb]

/-- Witness env for C6: one registered station "A", a rule oracle that
reports a runtime error on rule "boom" and `true` on rule "ok". -/
def envRule : EngineEnv :=
  { workflows := [("t", [{ stationIDs := ["A"], rule := "boom" }])],
    stations := ["A"],
    exec := fun _ _ => true,
    evalExpr := fun r _ =>
      if r = "ok" then ExprOutcome.boolVal true else ExprOutcome.runtimeError }

/-- A concrete order. -/
def prodT : Product :=
  { id := "P", type := "t", priority := 0, step := 0,
    history := [], status := "", attrs := [] }

/-- Witness for C6 at a concrete step: an erroring rule skips the step
and proceeds; the conjuncts are discharged at the erroring step. -/
theorem rule_gating_witness :
    (({ stationIDs := ["A"], rule := "boom" } : WorkflowStep).rule ≠ "" ∧
     envRule.evalExpr "boom" { prodT with step := (0 : Int) } =
       ExprOutcome.runtimeError) ∧
    processLoop envRule prodT [{ stationIDs := ["A"], rule := "boom" }] 0 [] =
      processLoop envRule prodT [] 1 [] := by
  refine ⟨⟨by decide, by decide⟩, ?_⟩
  exact (rule_gating envRule prodT { stationIDs := ["A"], rule := "boom" } [] 0 []).2.2.2
    (by decide) (Or.inr (Or.inl (by decide)))

/-- Engine with one two-station parallel step: station "A" succeeds,
station "B" fails. -/
def envMixedStep : EngineEnv :=
  { workflows := [("t", [{ stationIDs := ["A", "B"], rule := "" }])],
    stations := ["A", "B"],
    exec := fun s _ => s == "A",
    evalExpr := fun _ _ => ExprOutcome.nonBool }

/-- C2 counterexample: in a step where station "A" returned success and
station "B" failed, the invocation fails (ProductFailed and
ProductCompensated are published) yet `Compensate` is never invoked on
"A" — the claim's "every station that previously returned success" is
not compensated, because `executedStations` only accumulates fully
successful steps. -/
theorem rollback_misses_failing_step_success :
    Action.execCall "A" true ∈ Process envMixedStep prodT ∧
    Action.publish { type := EventType.productFailed, productID := "P" } ∈
      Process envMixedStep prodT ∧
    Action.publish { type := EventType.productCompensated, productID := "P" } ∈
      Process envMixedStep prodT ∧
    Action.compCall "A" ∉ Process envMixedStep prodT := by
  decide

/-- C2 (amended): when an executed step fails, `Compensate` is invoked
on exactly the stations of the earlier fully-successful steps, in strict
reverse order of their execution, after `ProductFailed` and before
`ProductCompensated`; no compensation call occurs elsewhere in the
trace.  (Stations that returned success inside the failing step itself
are not compensated.) -/
theorem rollback_reverses_successful_steps (env : EngineEnv) (p : Product)
    (l : List StationID)
    (h : failureSplit env p (resolveWorkflow env.workflows p.type) 0 [] = some l) :
    ∃ pre, Process env p =
        pre ++ Action.publish { type := EventType.productFailed, productID := p.id } ::
          (l.reverse.map Action.compCall ++
           [Action.publish { type := EventType.productCompensated, productID := p.id }]) ∧
      ∀ s, Action.compCall s ∉ pre := by
  have hs := processLoop_shape env p (resolveWorkflow env.workflows p.type) 0 []
  rw [h] at hs
  obtain ⟨pre, hpre, hall⟩ := hs
  refine ⟨Action.publish { type := EventType.productStarted, productID := p.id } :: pre,
    ?_, ?_⟩
  · unfold Process
    rw [hpre]
    rfl
  · intro s hmem
    rcases List.mem_cons.mp hmem with h0 | h0
    · exact absurd h0 (by simp)
    · have := hall _ h0
      simp [isStepAction] at this

/-- Engine with two single-station steps: "A" succeeds, then "B"
fails. -/
def envTwoSteps : EngineEnv :=
  { workflows := [("t", [{ stationIDs := ["A"], rule := "" },
                         { stationIDs := ["B"], rule := "" }])],
    stations := ["A", "B"],
    exec := fun s _ => s == "A",
    evalExpr := fun _ _ => ExprOutcome.nonBool }

/-- Witness for the amended C2: with step "A" successful and step "B"
failing, the trace ends with ProductFailed, `Compensate("A")`,
ProductCompensated. -/
theorem rollback_reverses_successful_steps_witness :
    ∃ pre, Process envTwoSteps prodT =
        pre ++ Action.publish { type := EventType.productFailed, productID := prodT.id } ::
          (["A"].reverse.map Action.compCall ++
           [Action.publish { type := EventType.productCompensated, productID := prodT.id }]) ∧
      ∀ s, Action.compCall s ∉ pre :=
  rollback_reverses_successful_steps envTwoSteps prodT ["A"] (by decide)

theorem filter_isTerminal_of_stepActions {pre : List Action}
    (h : ∀ a ∈ pre, isStepAction a = true) : pre.filter isTerminal = [] := by
  rw [List.filter_eq_nil_iff]
  intro a ha
  rw [stepAction_not_terminal (h a ha)]
  exact Bool.false_ne_true

theorem filter_isTerminal_compCalls (l : List StationID) :
    (l.map Action.compCall).filter isTerminal = [] := by
  rw [List.filter_eq_nil_iff]
  intro a ha
  rcases List.mem_map.mp ha with ⟨s, _, rfl⟩
  exact Bool.false_ne_true

/-- C4: one `Process` invocation publishes exactly one terminal event:
`ProductCompleted` when no executed step fails (in particular when every
step is skipped), `ProductCompensated` when some executed step fails, in
which case `ProductFailed` is published before it. -/
theorem process_one_terminal (env : EngineEnv) (p : Product) :
    ((Process env p).filter isTerminal =
      (match failureSplit env p (resolveWorkflow env.workflows p.type) 0 [] with
       | some _ =>
           [Action.publish { type := EventType.productCompensated, productID := p.id }]
       | none =>
           [Action.publish { type := EventType.productCompleted, productID := p.id }])) ∧
    (∀ l, failureSplit env p (resolveWorkflow env.workflows p.type) 0 [] = some l →
       ∃ a b, Process env p =
           a ++ Action.publish { type := EventType.productFailed, productID := p.id } :: b ∧
         Action.publish { type := EventType.productCompensated, productID := p.id } ∈ b) := by
  have hs := processLoop_shape env p (resolveWorkflow env.workflows p.type) 0 []
  constructor
  · cases hsplit : failureSplit env p (resolveWorkflow env.workflows p.type) 0 [] with
    | some l =>
        rw [hsplit] at hs
        obtain ⟨pre, hpre, hall⟩ := hs
        unfold Process
        rw [hpre]
        rw [List.filter_cons_of_neg (by simp [isTerminal])]
        rw [List.filter_append, filter_isTerminal_of_stepActions hall]
        rw [List.filter_cons_of_neg (by simp [isTerminal])]
        unfold rollbackActions
        rw [List.filter_append, filter_isTerminal_compCalls]
        rfl
    | none =>
        rw [hsplit] at hs
        obtain ⟨pre, hpre, hall⟩ := hs
        unfold Process
        rw [hpre]
        rw [List.filter_cons_of_neg (by simp [isTerminal])]
        rw [List.filter_append, filter_isTerminal_of_stepActions hall]
        rfl
  · intro l hsplit
    rw [hsplit] at hs
    obtain ⟨pre, hpre, hall⟩ := hs
    refine ⟨Action.publish { type := EventType.productStarted, productID := p.id } :: pre,
      rollbackActions p.id l, ?_, ?_⟩
    · unfold Process
      rw [hpre]
      rfl
    · unfold rollbackActions
      exact List.mem_append_right _ (List.mem_singleton.mpr rfl)

/-- Witness for C4: on the all-steps-skipped engine (`envRule`, whose
only step has an erroring rule) the single terminal event is
`ProductCompleted`. -/
theorem process_one_terminal_witness :
    ((Process envRule prodT).filter isTerminal =
      (match failureSplit envRule prodT
           (resolveWorkflow envRule.workflows prodT.type) 0 [] with
       | some _ =>
           [Action.publish { type := EventType.productCompensated, productID := prodT.id }]
       | none =>
           [Action.publish { type := EventType.productCompleted, productID := prodT.id }])) ∧
    (∀ l, failureSplit envRule prodT
         (resolveWorkflow envRule.workflows prodT.type) 0 [] = some l →
       ∃ a b, Process envRule prodT =
           a ++ Action.publish { type := EventType.productFailed, productID := prodT.id } :: b ∧
         Action.publish { type := EventType.productCompensated, productID := prodT.id } ∈ b) :=
  process_one_terminal envRule prodT

/-! ## Priority queue (internal/engine/priority_queue.go + container/heap)

`PriorityQueue` is a slice of order pointers driven by Go's
`container/heap`: `heap.Push` appends and sifts up, `heap.Pop` swaps the
root with the last element, sifts down, and removes the last element.
`Less(i, j)` compares priorities with `>`, so the root carries a maximum
priority.  The slice is embedded as its length plus its contents as a
function on indices (entries at or beyond `size` are junk). -/

structure PQ where
  size : Nat
  val : Nat → Product

/-- `PriorityQueue.Less`: entry `i` sorts before entry `j` iff its
priority is strictly greater. -/
def pqLess (q : PQ) (i j : Nat) : Prop :=
  (q.val i).priority > (q.val j).priority

instance (q : PQ) (i j : Nat) : Decidable (pqLess q i j) :=
  inferInstanceAs (Decidable (_ < _))

/-- `PriorityQueue.Swap`. -/
def pqSwap (q : PQ) (i j : Nat) : PQ :=
  { q with val := fun k => if k = i then q.val j else if k = j then q.val i else q.val k }

/-- `container/heap.up`: bubble the entry at `j` towards the root while
it sorts before its parent `(j-1)/2`. -/
def up (q : PQ) (j : Nat) : PQ :=
  if (j - 1) / 2 = j ∨ ¬ pqLess q j ((j - 1) / 2) then q
  else up (pqSwap q ((j - 1) / 2) j) ((j - 1) / 2)
termination_by j
decreasing_by
  rename_i h
  rcases not_or.mp h with ⟨h1, _⟩
  omega

/-- The child `j` selected by one iteration of `container/heap.down`:
the right child `2i+2` when it exists and sorts before the left child,
the left child `2i+1` otherwise. -/
def downChild (q : PQ) (i n : Nat) : Nat :=
  if 2 * i + 2 < n ∧ pqLess q (2 * i + 2) (2 * i + 1) then 2 * i + 2 else 2 * i + 1

theorem downChild_lt (q : PQ) (i n : Nat) (h : ¬ 2 * i + 1 ≥ n) :
    i < downChild q i n ∧ downChild q i n < n := by
  unfold downChild
  split <;> omega

/-- `container/heap.down` restricted to the boundary `n`: push the entry
at `i` down, always descending to the selected child. -/
def down (q : PQ) (i n : Nat) : PQ :=
  if h1 : 2 * i + 1 ≥ n then q
  else
    if ¬ pqLess q (downChild q i n) i then q
    else down (pqSwap q i (downChild q i n)) (downChild q i n) n
termination_by n - i
decreasing_by
  have := downChild_lt q i n h1
  omega

/-- `heap.Push` on `PriorityQueue`: append the order at index `size`
(`PriorityQueue.Push`), then sift it up from the last index. -/
def heapPush (q : PQ) (p : Product) : PQ :=
  up { size := q.size + 1, val := fun k => if k = q.size then p else q.val k } q.size

/-- `heap.Pop` on `PriorityQueue`: swap the root with the last entry,
sift the new root down over the shortened range, and return the old
root together with the shortened queue (`PriorityQueue.Pop` removes the
last slot).  Go panics on an empty queue; the scheduler pops only
non-empty queues. -/
def heapPop (q : PQ) : Product × PQ :=
  let n := q.size - 1
  let q2 := down (pqSwap q 0 n) 0 n
  (q2.val n, { size := n, val := q2.val })

/-- The `container/heap` invariant for `Less` as above: every child's
priority is at most its parent's. -/
def heapInv (q : PQ) : Prop :=
  ∀ j, 0 < j → j < q.size → (q.val j).priority ≤ (q.val ((j - 1) / 2)).priority

theorem pqSwap_size (q : PQ) (i j : Nat) : (pqSwap q i j).size = q.size := rfl

theorem pqSwap_val_left (q : PQ) (i j : Nat) : (pqSwap q i j).val i = q.val j := by
  simp [pqSwap]

theorem pqSwap_val_right (q : PQ) (i j : Nat) (h : i ≠ j) :
    (pqSwap q i j).val j = q.val i := by
  simp [pqSwap, h.symm]

theorem pqSwap_val_other (q : PQ) (i j k : Nat) (hi : k ≠ i) (hj : k ≠ j) :
    (pqSwap q i j).val k = q.val k := by
  simp [pqSwap, hi, hj]

theorem up_size (q : PQ) (j : Nat) : (up q j).size = q.size := by
  induction q, j using up.induct with
  | case1 q j h => rw [up, if_pos h]
  | case2 q j h ih => rw [up, if_neg h]; exact ih

theorem down_size (q : PQ) (i n : Nat) : (down q i n).size = q.size := by
  induction q, i, n using down.induct with
  | case1 q i n h => rw [down, dif_pos h]
  | case2 q i n h1 h2 => rw [down, dif_neg h1, if_pos h2]
  | case3 q i n h1 h2 ih => rw [down, dif_neg h1, if_neg h2]; exact ih

theorem heapPush_size (q : PQ) (p : Product) : (heapPush q p).size = q.size + 1 := by
  unfold heapPush
  rw [up_size]

/-- Sift-up invariant: the heap condition holds at every edge except the
one into `j`, and the children of `j` are already bounded by `j`'s
parent (so the parent may move down into `j`'s slot). -/
def UpInv (q : PQ) (j : Nat) : Prop :=
  (∀ k, 0 < k → k < q.size → k ≠ j →
     (q.val k).priority ≤ (q.val ((k - 1) / 2)).priority) ∧
  (0 < j → ∀ c, c < q.size → (c - 1) / 2 = j →
     (q.val c).priority ≤ (q.val ((j - 1) / 2)).priority)

theorem up_heapInv : ∀ (q : PQ) (j : Nat), j < q.size → UpInv q j → heapInv (up q j) := by
  intro q j
  induction q, j using up.induct with
  | case1 q j hstop =>
      intro hj hinv
      rw [up, if_pos hstop]
      intro k hk0 hks
      by_cases hkj : k = j
      · subst hkj
        rcases hstop with hstop | hstop
        · omega
        · exact le_of_not_lt hstop
      · exact hinv.1 k hk0 hks hkj
  | case2 q j hgo ih =>
      intro hj hinv
      rcases not_or.mp hgo with ⟨hne, hlt⟩
      have hlt : pqLess q j ((j - 1) / 2) := not_not.mp hlt
      have hij : (j - 1) / 2 < j := by omega
      have h0j : 0 < j := by omega
      rw [up, if_neg hgo]
      apply ih
      · rw [pqSwap_size]; exact lt_trans hij hj
      · have hvi : (pqSwap q ((j - 1) / 2) j).val ((j - 1) / 2) = q.val j :=
          pqSwap_val_left q _ j
        have hvj : (pqSwap q ((j - 1) / 2) j).val j = q.val ((j - 1) / 2) :=
          pqSwap_val_right q _ j (Nat.ne_of_lt hij)
        have hvo : ∀ k, k ≠ (j - 1) / 2 → k ≠ j →
            (pqSwap q ((j - 1) / 2) j).val k = q.val k :=
          fun k h1 h2 => pqSwap_val_other q _ j k h1 h2
        constructor
        · -- every edge except the one into (j-1)/2
          intro k hk0 hks hki
          rw [pqSwap_size] at hks
          by_cases hkj : k = j
          · -- the old hole: its new value is the old parent value
            subst hkj
            rw [hvj, hvi]
            exact le_of_lt hlt
          · rw [hvo k hki hkj]
            by_cases hpj : (k - 1) / 2 = j
            · -- children of j keep their grandparent bound
              rw [hpj, hvj]
              exact hinv.2 h0j k hks hpj
            · by_cases hpi : (k - 1) / 2 = (j - 1) / 2
              · -- children of the target slot: bounded by the rising value
                rw [hpi, hvi]
                exact le_trans (hpi ▸ hinv.1 k hk0 hks hkj) (le_of_lt hlt)
              · rw [hvo _ hpi hpj]
                exact hinv.1 k hk0 hks hkj
        · -- children of the new hole are bounded by its parent
          intro hi0 c hcs hpc
          rw [pqSwap_size] at hcs
          have hgne : (((j - 1) / 2) - 1) / 2 ≠ (j - 1) / 2 := by omega
          have hgnej : (((j - 1) / 2) - 1) / 2 ≠ j := by omega
          rw [hvo _ hgne hgnej]
          have hbase : (q.val ((j - 1) / 2)).priority ≤
              (q.val ((((j - 1) / 2) - 1) / 2)).priority :=
            hinv.1 _ hi0 (lt_trans hij hj) (Nat.ne_of_lt hij)
          by_cases hcj : c = j
          · subst hcj
            rw [hvj]
            exact hbase
          · have hci : c ≠ (j - 1) / 2 := by omega
            rw [hvo c hci hcj]
            have hc0 : 0 < c := by omega
            exact le_trans (hpc ▸ hinv.1 c hc0 hcs hcj) hbase

/-- `heap.Push` preserves the heap invariant. -/
theorem heapPush_heapInv (q : PQ) (p : Product) (h : heapInv q) :
    heapInv (heapPush q p) := by
  unfold heapPush
  apply up_heapInv
  · simp
  · constructor
    · intro k hk0 hks hkj
      simp only at hks
      have hklt : k < q.size := by omega
      have hpk : (k - 1) / 2 ≠ q.size := by omega
      simp only [if_neg hkj, if_neg hpk]
      exact h k hk0 hklt
    · intro hj c hc hpc
      simp only at hc
      omega

/-- Sift-down invariant over the region `[0, n)`: the heap condition
holds at every edge except those into `i`'s children, and (once the hole
has a parent) `i`'s children are bounded by `i`'s parent. -/
def DownInv (q : PQ) (n i : Nat) : Prop :=
  (∀ k, 0 < k → k < n → (k - 1) / 2 ≠ i →
     (q.val k).priority ≤ (q.val ((k - 1) / 2)).priority) ∧
  (0 < i → ∀ c, 0 < c → c < n → (c - 1) / 2 = i →
     (q.val c).priority ≤ (q.val ((i - 1) / 2)).priority)

/-- Any sibling of the selected child (the other child of `i` inside the
region) is bounded by the selected child. -/
theorem downChild_dominates (q : PQ) (i n : Nat) (h1 : ¬ 2 * i + 1 ≥ n)
    (k : Nat) (hk0 : 0 < k) (hk : k < n) (hpk : (k - 1) / 2 = i) :
    (q.val k).priority ≤ (q.val (downChild q i n)).priority := by
  have hk12 : k = 2 * i + 1 ∨ k = 2 * i + 2 := by omega
  unfold downChild
  by_cases hc : 2 * i + 2 < n ∧ pqLess q (2 * i + 2) (2 * i + 1)
  · rw [if_pos hc]
    rcases hk12 with hk12 | hk12 <;> subst hk12
    · exact le_of_lt hc.2
    · exact le_refl _
  · rw [if_neg hc]
    rcases hk12 with hk12 | hk12 <;> subst hk12
    · exact le_refl _
    · have : ¬ pqLess q (2 * i + 2) (2 * i + 1) := fun hp => hc ⟨by omega, hp⟩
      exact le_of_not_lt this

/-- The selected child is a child of `i`. -/
theorem downChild_parent (q : PQ) (i n : Nat) :
    (downChild q i n - 1) / 2 = i := by
  unfold downChild
  split <;> omega

/-- After sifting down from a state satisfying the sift-down invariant,
the whole region `[0, n)` satisfies the heap condition. -/
theorem down_heapInv : ∀ (q : PQ) (i n : Nat), DownInv q n i →
    ∀ k, 0 < k → k < n →
      ((down q i n).val k).priority ≤ ((down q i n).val ((k - 1) / 2)).priority := by
  intro q i n
  induction q, i, n using down.induct with
  | case1 q i n hstop =>
      intro hinv k hk0 hks
      rw [down, dif_pos hstop]
      by_cases hpk : (k - 1) / 2 = i
      · omega
      · exact hinv.1 k hk0 hks hpk
  | case2 q i n h1 h2 =>
      intro hinv k hk0 hks
      rw [down, dif_neg h1, if_pos h2]
      by_cases hpk : (k - 1) / 2 = i
      · rw [hpk]
        exact le_trans (downChild_dominates q i n h1 k hk0 hks hpk) (le_of_not_lt h2)
      · exact hinv.1 k hk0 hks hpk
  | case3 q i n h1 h2 ih =>
      intro hinv k hk0 hks
      have h2 : pqLess q (downChild q i n) i := not_not.mp h2
      obtain ⟨hij, hjn⟩ := downChild_lt q i n h1
      have hpj : (downChild q i n - 1) / 2 = i := downChild_parent q i n
      have hj12 : downChild q i n = 2 * i + 1 ∨ downChild q i n = 2 * i + 2 := by
        unfold downChild
        split <;> omega
      rw [down, dif_neg h1, if_neg (not_not_intro h2)]
      apply ih _ k hk0 hks
      have hvi : (pqSwap q i (downChild q i n)).val i = q.val (downChild q i n) :=
        pqSwap_val_left q _ _
      have hvj : (pqSwap q i (downChild q i n)).val (downChild q i n) = q.val i :=
        pqSwap_val_right q _ _ (Nat.ne_of_lt hij)
      have hvo : ∀ m, m ≠ i → m ≠ downChild q i n →
          (pqSwap q i (downChild q i n)).val m = q.val m :=
        fun m hm1 hm2 => pqSwap_val_other q _ _ m hm1 hm2
      constructor
      · intro m hm0 hmn hpm
        by_cases hmj : m = downChild q i n
        · -- the swapped-down root: its parent slot now holds the big child
          rw [hmj, hvj, hpj, hvi]
          exact le_of_lt h2
        · by_cases hmi : m = i
          · -- the hole's old slot, now holding the selected child's value:
            -- bounded by the hole's parent via the second invariant
            have h0i : 0 < i := hmi ▸ hm0
            rw [hmi, hvi]
            have hpar_ne_i : (i - 1) / 2 ≠ i := by omega
            have hpar_ne_j : (i - 1) / 2 ≠ downChild q i n := by omega
            rw [hvo _ hpar_ne_i hpar_ne_j]
            exact hinv.2 h0i (downChild q i n) (by omega) hjn hpj
          · rw [hvo m hmi hmj]
            by_cases hpmi : (m - 1) / 2 = i
            · -- the other child of i: bounded by the selected child
              rw [hpmi, hvi]
              exact downChild_dominates q i n h1 m hm0 hmn hpmi
            · rw [hvo _ hpmi hpm]
              exact hinv.1 m hm0 hmn hpmi
      · intro hj0 c hc0 hcn hpc
        have hcj : c ≠ downChild q i n := by omega
        have hci : c ≠ i := by omega
        rw [hvo c hci hcj, hpj, hvi]
        have hpci : (c - 1) / 2 ≠ i := by omega
        have := hinv.1 c hc0 hcn hpci
        rw [hpc] at this
        exact this

/-- Sift-down only permutes entries inside the region: every entry of
the region comes from some entry of the original region. -/
theorem down_val_source : ∀ (q : PQ) (i n : Nat), ∀ k, k < n →
    ∃ m, m < n ∧ (down q i n).val k = q.val m := by
  intro q i n
  induction q, i, n using down.induct with
  | case1 q i n hstop =>
      intro k hk
      rw [down, dif_pos hstop]
      exact ⟨k, hk, rfl⟩
  | case2 q i n h1 h2 =>
      intro k hk
      rw [down, dif_neg h1, if_pos h2]
      exact ⟨k, hk, rfl⟩
  | case3 q i n h1 h2 ih =>
      intro k hk
      obtain ⟨hij, hjn⟩ := downChild_lt q i n h1
      rw [down, dif_neg h1, if_neg h2]
      obtain ⟨m, hm, he⟩ := ih k hk
      by_cases hmi : m = i
      · exact ⟨downChild q i n, hjn, by rw [he, hmi, pqSwap_val_left]⟩
      · by_cases hmj : m = downChild q i n
        · refine ⟨i, lt_trans hij hjn, ?_⟩
          rw [he, hmj, pqSwap_val_right q _ _ (Nat.ne_of_lt hij)]
        · exact ⟨m, hm, by rw [he, pqSwap_val_other q _ _ m hmi hmj]⟩

/-- Sift-down never touches entries at or beyond the boundary. -/
theorem down_val_ge : ∀ (q : PQ) (i n : Nat), ∀ k, n ≤ k →
    (down q i n).val k = q.val k := by
  intro q i n
  induction q, i, n using down.induct with
  | case1 q i n hstop =>
      intro k hk
      rw [down, dif_pos hstop]
  | case2 q i n h1 h2 =>
      intro k hk
      rw [down, dif_neg h1, if_pos h2]
  | case3 q i n h1 h2 ih =>
      intro k hk
      obtain ⟨hij, hjn⟩ := downChild_lt q i n h1
      rw [down, dif_neg h1, if_neg h2, ih k hk,
        pqSwap_val_other q _ _ k (by omega) (by omega)]

/-- In a heap the root has maximal priority. -/
theorem heapInv_root_max (q : PQ) (h : heapInv q) :
    ∀ j, j < q.size → (q.val j).priority ≤ (q.val 0).priority := by
  intro j
  induction j using Nat.strong_induction_on with
  | _ j ih =>
      intro hj
      rcases Nat.eq_zero_or_pos j with h0 | h0
      · rw [h0]
      · have hp := h j h0 hj
        have hlt : (j - 1) / 2 < j := by omega
        exact le_trans hp (ih _ hlt (lt_trans hlt hj))

/-- `heap.Pop` preserves the heap invariant. -/
theorem heapPop_heapInv (q : PQ) (h : heapInv q) : heapInv (heapPop q).2 := by
  intro k hk0 hks
  unfold heapPop at *
  simp only at hks ⊢
  refine down_heapInv _ _ _ ⟨?_, ?_⟩ k hk0 hks
  · intro m hm0 hmn hpm
    have hmne : m ≠ (0 : Nat) := by omega
    have hmnn : m ≠ q.size - 1 := by omega
    have hpne : (m - 1) / 2 ≠ (0 : Nat) := hpm
    have hpnn : (m - 1) / 2 ≠ q.size - 1 := by omega
    rw [pqSwap_val_other q _ _ m hmne hmnn, pqSwap_val_other q _ _ _ hpne hpnn]
    exact h m hm0 (by omega)
  · intro h0
    omega

/-- C8: for every queue reachable by pushes and (non-empty) pops from
the empty queue, popping a non-empty queue returns an order whose
priority is at least the priority of every order remaining in the
queue. -/
theorem heapPop_returns_max (q : PQ) (hinv : heapInv q) (hs : 0 < q.size) :
    ∀ k, k < (heapPop q).2.size →
      ((heapPop q).2.val k).priority ≤ ((heapPop q).1).priority := by
  intro k hk
  unfold heapPop at hk ⊢
  simp only at hk ⊢
  have hroot : (down (pqSwap q 0 (q.size - 1)) 0 (q.size - 1)).val (q.size - 1) =
      q.val 0 := by
    rw [down_val_ge _ _ _ _ (le_refl _)]
    rcases Nat.eq_zero_or_pos (q.size - 1) with h0 | h0
    · rw [h0, pqSwap_val_left]
    · rw [pqSwap_val_right q _ _ (by omega)]
  rw [hroot]
  obtain ⟨m, hm, he⟩ := down_val_source (pqSwap q 0 (q.size - 1)) 0 (q.size - 1) k hk
  rw [he]
  by_cases hm0 : m = 0
  · rw [hm0, pqSwap_val_left]
    exact heapInv_root_max q hinv _ (by omega)
  · have hmn : m ≠ q.size - 1 := by omega
    rw [pqSwap_val_other q _ _ m hm0 hmn]
    exact heapInv_root_max q hinv _ (by omega)

/-- The queue states reachable by the scheduler's use of the priority
queue: start empty, `heap.Push` on submit, `heap.Pop` on dispatch of a
non-empty queue. -/
inductive PQReach : PQ → Prop where
  | empty : PQReach { size := 0, val := fun _ => default }
  | push (q : PQ) (p : Product) : PQReach q → PQReach (heapPush q p)
  | pop (q : PQ) : PQReach q → 0 < q.size → PQReach (heapPop q).2

/-- Every reachable queue satisfies the heap invariant. -/
theorem pqReach_heapInv {q : PQ} (h : PQReach q) : heapInv q := by
  induction h with
  | empty => intro j hj0 hjs; simp at hjs
  | push q p _ ih => exact heapPush_heapInv q p ih
  | pop q _ _ ih => exact heapPop_heapInv q ih

/-- C8 packaged over reachable queues: `Pop` on any non-empty reachable
queue returns a maximal-priority order. -/
theorem pop_max_of_reachable (q : PQ) (hr : PQReach q) (hs : 0 < q.size) :
    ∀ k, k < (heapPop q).2.size →
      ((heapPop q).2.val k).priority ≤ ((heapPop q).1).priority :=
  heapPop_returns_max q (pqReach_heapInv hr) hs

/-- Two concrete orders of priorities 1 and 7. -/
def prodLow : Product :=
  { id := "L", type := "t", priority := 1, step := 0,
    history := [], status := "", attrs := [] }

/-- Higher-priority order. -/
def prodHigh : Product :=
  { id := "H", type := "t", priority := 7, step := 0,
    history := [], status := "", attrs := [] }

/-- The queue obtained by pushing priorities 1 then 7 onto the empty
queue. -/
def demoQueue : PQ :=
  heapPush (heapPush { size := 0, val := fun _ => default } prodLow) prodHigh

/-- Witness for C8: popping `demoQueue` yields an order whose priority
dominates the remaining entry at index 0. -/
theorem pop_max_of_reachable_witness :
    ((heapPop demoQueue).2.val 0).priority ≤ ((heapPop demoQueue).1).priority := by
  have hsz : (heapPop demoQueue).2.size = 1 := by
    have h0 : (heapPop demoQueue).2.size = demoQueue.size - 1 := rfl
    rw [h0]
    unfold demoQueue
    rw [heapPush_size, heapPush_size]
    rfl
  exact pop_max_of_reachable demoQueue
    (PQReach.push _ prodHigh (PQReach.push _ prodLow PQReach.empty))
    (by unfold demoQueue; rw [heapPush_size, heapPush_size]; exact Nat.succ_pos _)
    0 (by rw [hsz]; exact Nat.one_pos)

/-! ## Scheduler (internal/engine/scheduler.go)

`SubmitTask` appends to the WAL and then admits the order in memory;
`Start` runs the dispatch loop: pop the top order under the mutex,
acquire a worker slot from the `workerPool` channel (capacity
`maxWorkers`), and spawn a worker that runs `engine.Process`, marks the
WAL complete and releases the slot.
-/

/-- `web.ProductState`: the tracker's view of one order. -/
structure ProductState where
  id : String
  type : String
  priority : Int
  station : StationID
  status : String
  attrs : List (String × AttrVal)
deriving DecidableEq, Repr

/-- Go map write for the tracker (`st.state.Products[p.ID] = ...`). -/
def insertS : List (String × ProductState) → String → ProductState →
    List (String × ProductState)
  | [], k, v => [(k, v)]
  | kv :: rest, k, v => if kv.1 = k then (k, v) :: rest else kv :: insertS rest k v

/-- `StateTracker.AddProduct`: insert the order with empty station and
status "QUEUED", from its submitted fields. -/
def AddProduct (st : List (String × ProductState)) (p : Product) :
    List (String × ProductState) :=
  insertS st p.id
    { id := p.id, type := p.type, priority := p.priority,
      station := "", status := "QUEUED", attrs := p.attrs }

/-- The scheduler's in-memory admission state: the priority queue and
the state tracker. -/
structure SchedulerMem where
  pq : PQ
  tracker : List (String × ProductState)

/-- `Scheduler.submit` (scheduler.go:73-81): push onto the priority
queue and notify the state tracker (metrics and the condition-variable
signal carry no admission state). -/
def submit (s : SchedulerMem) (p : Product) : SchedulerMem :=
  { pq := heapPush s.pq p, tracker := AddProduct s.tracker p }

/-- `Scheduler.SubmitTask` (scheduler.go:62-70).  `appendErr` is whether
`wal.Append(p)` returned an error; the code only logs it
("写入 WAL 失败") and falls through to `s.submit(p)` unconditionally,
and `SubmitTask` has no return value through which to surface the
error. -/
def SubmitTask (s : SchedulerMem) (appendErr : Bool) (p : Product) : SchedulerMem :=
  submit s p

/-- The empty admission state. -/
def emptySched : SchedulerMem :=
  { pq := { size := 0, val := fun _ => default }, tracker := [] }

/-- C3 evaluation: when `WAL.Append` fails during `SubmitTask`, the
order is nevertheless enqueued (queue length grows) and the state
tracker records it as QUEUED; the outcome is moreover identical to a
successful append, so no failure is surfaced to the caller.  This
contradicts the claim that admission fails and the queue and tracker
are left unchanged. -/
theorem submitTask_ignores_wal_failure :
    (SubmitTask emptySched true prodA).pq.size = 1 ∧
    (SubmitTask emptySched true prodA).tracker =
      [("A", { id := "A", type := "pcb_double_layer", priority := 0,
               station := "", status := "QUEUED", attrs := [] })] ∧
    (∀ s p, SubmitTask s true p = SubmitTask s false p) := by
  refine ⟨?_, rfl, fun s p => rfl⟩
  show (heapPush emptySched.pq prodA).size = 1
  rw [heapPush_size]
  rfl

/-! ### Worker-slot discipline (C9)

`Start` is concurrent; its slot discipline is embedded as a transition
system over counters of workers in each phase.  Each transition is one
atomic step of scheduler.go: `submit` (line 77), the pop of the loop
(line 114), the blocking send on `workerPool` (line 119, enabled only
while fewer than `maxWorkers` tokens are held), the spawned goroutine
entering `engine.Process` (line 130), `Process` returning (line 130),
and the receive from `workerPool` after the WAL completion (line 136).
A worker holds its token from the send until that receive. -/

structure SchedState where
  queued : Nat
  popped : Nat
  starting : Nat
  running : Nat
  finishing : Nat
  slots : Nat
deriving DecidableEq, Repr

/-- One atomic step of the dispatch loop or of a worker. -/
inductive SchedStep (m : Nat) : SchedState → SchedState → Prop where
  | submit (s : SchedState) :
      SchedStep m s { s with queued := s.queued + 1 }
  | pop (s : SchedState) : 0 < s.queued →
      SchedStep m s { s with queued := s.queued - 1, popped := s.popped + 1 }
  | acquire (s : SchedState) : 0 < s.popped → s.slots < m →
      SchedStep m s
        { s with popped := s.popped - 1, slots := s.slots + 1,
                 starting := s.starting + 1 }
  | beginProcess (s : SchedState) : 0 < s.starting →
      SchedStep m s
        { s with starting := s.starting - 1, running := s.running + 1 }
  | endProcess (s : SchedState) : 0 < s.running →
      SchedStep m s
        { s with running := s.running - 1, finishing := s.finishing + 1 }
  | release (s : SchedState) : 0 < s.finishing →
      SchedStep m s
        { s with finishing := s.finishing - 1, slots := s.slots - 1 }

/-- The scheduler's initial state: nothing queued, no worker anywhere. -/
def initSched : SchedState :=
  { queued := 0, popped := 0, starting := 0, running := 0, finishing := 0, slots := 0 }

/-- States reachable by any interleaving of scheduler steps. -/
inductive SchedReach (m : Nat) : SchedState → Prop where
  | init : SchedReach m initSched
  | step {s t : SchedState} : SchedReach m s → SchedStep m s t → SchedReach m t

/-- Token accounting: every worker between slot acquisition and release
holds exactly one of the `slots` tokens, and the channel never holds
more than its capacity. -/
def SlotInv (m : Nat) (s : SchedState) : Prop :=
  s.slots = s.starting + s.running + s.finishing ∧ s.slots ≤ m

theorem schedStep_slotInv {m : Nat} {s t : SchedState}
    (h : SlotInv m s) (hs : SchedStep m s t) : SlotInv m t := by
  obtain ⟨h1, h2⟩ := h
  cases hs <;> constructor <;> simp_all <;> omega

theorem schedReach_slotInv {m : Nat} {s : SchedState}
    (h : SchedReach m s) : SlotInv m s := by
  induction h with
  | init => exact ⟨rfl, Nat.zero_le m⟩
  | step _ hs ih => exact schedStep_slotInv ih hs

/-- C9: in every reachable scheduler state at most `maxWorkers`
invocations of `engine.Process` run concurrently — a slot is acquired
from the capacity-`maxWorkers` channel before the worker starts and is
released only after its `Process` call returns. -/
theorem bounded_concurrent_process (m : Nat) (s : SchedState)
    (h : SchedReach m s) : s.running ≤ m := by
  obtain ⟨h1, h2⟩ := schedReach_slotInv h
  omega

/-- Witness for C9: a state with one running worker under
`maxWorkers = 2` (the shipped config), reached by submit, pop, acquire
and beginProcess. -/
theorem bounded_concurrent_process_witness :
    (SchedState.mk 0 0 0 1 0 1).running ≤ 2 := by
  refine bounded_concurrent_process 2 _ ?_
  have h1 : SchedReach 2 (SchedState.mk 1 0 0 0 0 0) :=
    SchedReach.step SchedReach.init (SchedStep.submit initSched)
  have h2 : SchedReach 2 (SchedState.mk 0 1 0 0 0 0) :=
    SchedReach.step h1 (SchedStep.pop _ (by decide))
  have h3 : SchedReach 2 (SchedState.mk 0 0 1 0 0 1) :=
    SchedReach.step h2 (SchedStep.acquire _ (by decide) (by decide))
  exact SchedReach.step h3 (SchedStep.beginProcess _ (by decide))

end Industrial

